import Mathlib

/-!
Verification of the study-plan allocator (`src/first_study_plan.py`) and
replanner (`src/done_task.py`).

The Python code is shallowly embedded: task dicts become the `Task`
structure, hour values (Python floats used only through arithmetic and
comparisons) become rationals, and the in-place mutation of the task list
performed by `allocate_by_priority` becomes explicit state passing — the
embedded allocator returns the updated task list next to the produced plan.
-/

namespace StudyPlan

/-- A task dict as consumed by `allocate_by_priority` (keys `name`,
`remaining`, `time_per_item`, `difficulty`, `priority`; the `total` key is
never read by the allocator and is omitted). -/
structure Task where
  name : String
  remaining : Int
  time_per_item : ℚ
  difficulty : ℚ
  priority : Int
deriving Repr, DecidableEq

/-- One assignment record appended to a day's list by
`allocate_by_priority` (lines 125-129 of `first_study_plan.py`). -/
structure Assignment where
  name : String
  assigned : Int
  time : ℚ
deriving Repr, DecidableEq

/-- Effective per-item cost `time_per = t["time_per_item"] * t["difficulty"]`
(line 108 of `first_study_plan.py`). -/
def timePer (t : Task) : ℚ := t.time_per_item * t.difficulty

/-- One day's pass of the inner loop of `allocate_by_priority`
(lines 102-129 of `first_study_plan.py`): walk the priority-sorted task
list, threading `remaining_time` and `any_assigned`; return the updated
task list, the day's assignment list and the final `remaining_time`. -/
def allocDay (remaining_time : ℚ) (any_assigned : Bool) :
    List Task → List Task × List Assignment × ℚ
  | [] => ([], [], remaining_time)
  | t :: ts =>
    if t.remaining ≤ 0 then
      (t :: (allocDay remaining_time any_assigned ts).1,
       (allocDay remaining_time any_assigned ts).2)
    else if timePer t ≤ 0 then
      (t :: (allocDay remaining_time any_assigned ts).1,
       (allocDay remaining_time any_assigned ts).2)
    else
      let mi : Int := if remaining_time > 0 then ⌊remaining_time / timePer t⌋ else 0
      if mi > 0 then
        let assign : Int := min mi t.remaining
        (⟨t.name, t.remaining - assign, t.time_per_item, t.difficulty, t.priority⟩ ::
          (allocDay (remaining_time - assign * timePer t) true ts).1,
         ⟨t.name, assign, assign * timePer t⟩ ::
          (allocDay (remaining_time - assign * timePer t) true ts).2.1,
         (allocDay (remaining_time - assign * timePer t) true ts).2.2)
      else
        if remaining_time > 0 ∧ t.remaining > 0 ∧ any_assigned = false then
          (⟨t.name, t.remaining - 1, t.time_per_item, t.difficulty, t.priority⟩ ::
            (allocDay (remaining_time - 1 * timePer t) true ts).1,
           ⟨t.name, 1, 1 * timePer t⟩ ::
            (allocDay (remaining_time - 1 * timePer t) true ts).2.1,
           (allocDay (remaining_time - 1 * timePer t) true ts).2.2)
        else
          (t :: (allocDay remaining_time any_assigned ts).1,
           (allocDay remaining_time any_assigned ts).2)

/-- The outer loop over days of `allocate_by_priority` (line 101 of
`first_study_plan.py`): each day starts with `remaining_time` equal to the
day's capacity and `any_assigned = false`. -/
def allocDays : List ℚ → List Task → List Task × List (List Assignment)
  | [], ts => (ts, [])
  | c :: cs, ts =>
    ((allocDays cs (allocDay c false ts).1).1,
     (allocDay c false ts).2.1 :: (allocDays cs (allocDay c false ts).1).2)

/-- `tasks_sorted = sorted(tasks, key=lambda x: x["priority"])` (line 97 of
`first_study_plan.py`): Python's `sorted` is stable, so the stable
`List.mergeSort` under the same key comparison embeds it. -/
def sortTasks (tasks : List Task) : List Task :=
  tasks.mergeSort fun a b => decide (a.priority ≤ b.priority)

/-- `allocate_by_priority(day_capacities, tasks)` (lines 95-131 of
`first_study_plan.py`). Python mutates the shared task dicts in place;
the embedding returns the updated (sorted) task list alongside the
per-day plan. -/
def allocate_by_priority (day_capacities : List ℚ) (tasks : List Task) :
    List Task × List (List Assignment) :=
  allocDays day_capacities (sortTasks tasks)

/-- Total count assigned to task name `n` in one day's assignment list. -/
def sumFor (n : String) (as : List Assignment) : Int :=
  ((as.filter fun a => a.name = n).map fun a => a.assigned).sum

/-- Total count assigned to task name `n` over all days of a plan. -/
def planSumFor (n : String) (plan : List (List Assignment)) : Int :=
  (plan.map (sumFor n)).sum

/-- Total recorded time of one day's assignment list. -/
def daySumTime (as : List Assignment) : ℚ := (as.map fun a => a.time).sum

/-- The `name` fields of a task list. -/
def names (ts : List Task) : List String := ts.map fun t => t.name

/-- All task fields except the mutable `remaining`. -/
def eraseRemaining (t : Task) : String × ℚ × ℚ × Int :=
  (t.name, t.time_per_item, t.difficulty, t.priority)

/-- Agreement of two tasks on every field except `remaining`. -/
def FrameEq (t t' : Task) : Prop :=
  t'.name = t.name ∧ t'.time_per_item = t.time_per_item ∧
    t'.difficulty = t.difficulty ∧ t'.priority = t.priority

/-- Task state after the allocator has processed the days `cs` (the state
in which the next day's pass starts). -/
def tasksAfter (cs : List ℚ) (ts : List Task) : List Task := (allocDays cs ts).1

/-- One row of the `Plan` section of a saved CSV, as parsed by
`load_plan_csv` in `done_task.py` (line 104). -/
structure PlanRow where
  day : Int
  name : String
  assigned : Int
  time : ℚ
deriving Repr, DecidableEq

/-- The idle-day sentinel task name written for a day with no assignments
and skipped by `aggregate_tasks_from_plan` (line 115 of `done_task.py`). -/
def idleSentinel : String := "(休憩/学習無し)"

/-- Per-task accumulator of `aggregate_tasks_from_plan`: the dict value
built at lines 119-125 of `done_task.py`. -/
structure AggAcc where
  total_assigned : Int
  time_per_item_samples : List ℚ
  first_day : Int
deriving Repr, DecidableEq

/-- First-match lookup in an association list (Python `tasks[name]` /
`name in tasks`). -/
def lookupAcc : List (String × AggAcc) → String → Option AggAcc
  | [], _ => none
  | (m, a) :: rest, n => if m = n then some a else lookupAcc rest n

/-- Replace the binding of an existing key in place, or append a new key at
the end — Python dict update/insert semantics (insertion order kept). -/
def upsertAcc : List (String × AggAcc) → String → AggAcc → List (String × AggAcc)
  | [], n, a => [(n, a)]
  | (m, b) :: rest, n, a =>
    if m = n then (n, a) :: rest else (m, b) :: upsertAcc rest n a

/-- Processing of one plan row by the loop body of
`aggregate_tasks_from_plan` (lines 113-125 of `done_task.py`): skip the
idle sentinel, initialise a fresh accumulator on first sight of a name,
add the row's assigned count, record a `time/assigned` sample when
`assigned > 0`, and lower `first_day` to the row's day. -/
def aggStep (acc : List (String × AggAcc)) (r : PlanRow) : List (String × AggAcc) :=
  if r.name = idleSentinel then acc
  else
    let base : AggAcc :=
      match lookupAcc acc r.name with
      | some a => a
      | none => ⟨0, [], r.day⟩
    upsertAcc acc r.name
      ⟨base.total_assigned + r.assigned,
       base.time_per_item_samples ++
         (if r.assigned > 0 then [r.time / (r.assigned : ℚ)] else []),
       min base.first_day r.day⟩

/-- The per-task summary returned by `aggregate_tasks_from_plan` after the
final averaging loop (lines 127-131 of `done_task.py`). -/
structure AggInfo where
  total_assigned : Int
  first_day : Int
  time_per_item : ℚ
deriving Repr, DecidableEq

/-- `aggregate_tasks_from_plan(plan_rows)` (lines 110-132 of
`done_task.py`): fold the rows into per-name accumulators, then set
`time_per_item` to the mean of the samples, defaulting to 1.0 when there
are none. -/
def aggregate_tasks_from_plan (plan_rows : List PlanRow) : List (String × AggInfo) :=
  (plan_rows.foldl aggStep []).map fun p =>
    (p.1,
     ⟨p.2.total_assigned, p.2.first_day,
      if p.2.time_per_item_samples = [] then 1
      else p.2.time_per_item_samples.sum / (p.2.time_per_item_samples.length : ℚ)⟩)

/-- `prev = sum(r["assigned"] for r in plan_rows if r["name"] == name and
r["day"] < today)` (lines 204 and 232 of `done_task.py`). -/
def prevAssigned (plan_rows : List PlanRow) (n : String) (today : Int) : Int :=
  ((plan_rows.filter fun r => r.name = n ∧ r.day < today).map fun r => r.assigned).sum

/-- `max_possible = max(0, total_assigned - prev)` (line 220 of
`done_task.py`). -/
def max_possible (total_assigned prev : Int) : Int := max 0 (total_assigned - prev)

/-- The completion-input clamp of `run` (lines 220-226 of `done_task.py`):
a negative `done` becomes 0 and a `done` above `max_possible` becomes
`max_possible`; the boolean records whether the over-maximum warning was
printed. -/
def clamp_done (done total_assigned prev : Int) : Int × Bool :=
  let mp := max_possible total_assigned prev
  let d1 := if done < 0 then 0 else done
  if d1 > mp then (mp, true) else (d1, false)

/-- `remaining = total_assigned - prev - done_today`, clamped at 0
(lines 234-236 of `done_task.py`). -/
def derive_remaining (total_assigned prev done_today : Int) : Int :=
  if total_assigned - prev - done_today < 0 then 0
  else total_assigned - prev - done_today

/-- One derived task of the replanner's `remaining_tasks` loop
(lines 230-247 of `done_task.py`), given the aggregated info for `n`, the
historical rows, the chosen `today` and the (already clamped) completed
count. -/
def make_remaining_task (n : String) (info : AggInfo) (plan_rows : List PlanRow)
    (today done_today : Int) : Task :=
  ⟨n, derive_remaining info.total_assigned (prevAssigned plan_rows n today) done_today,
   info.time_per_item, 1, info.first_day⟩

/-- The full derived task set of the replanner (lines 229-247 of
`done_task.py`): one task per aggregated name, completed counts looked up
by name. -/
def make_remaining_tasks (tasks_info : List (String × AggInfo))
    (plan_rows : List PlanRow) (today : Int) (completed : String → Int) : List Task :=
  tasks_info.map fun p => make_remaining_task p.1 p.2 plan_rows today (completed p.1)

/-- The history rows belonging to task name `n`. -/
def rowsFor (n : String) (rows : List PlanRow) : List PlanRow :=
  rows.filter fun r => r.name = n

/-- Total assigned count over the rows of task name `n`. -/
def sumAssignedFor (n : String) (rows : List PlanRow) : Int :=
  ((rowsFor n rows).map fun r => r.assigned).sum

/-- Day numbers of the rows of task name `n`. -/
def daysFor (n : String) (rows : List PlanRow) : List Int :=
  (rowsFor n rows).map fun r => r.day

/-- The `time/assigned` samples contributed by the rows of task name `n`
with positive assigned count (lines 122-123 of `done_task.py`). -/
def samplesFor (n : String) (rows : List PlanRow) : List ℚ :=
  (rows.filter fun r => r.name = n ∧ r.assigned > 0).map
    fun r => r.time / (r.assigned : ℚ)

/-- Mean of a sample list, defaulting to 1.0 when empty (line 130 of
`done_task.py`). -/
def meanOrOne (l : List ℚ) : ℚ :=
  if l = [] then 1 else l.sum / (l.length : ℚ)

theorem sumFor_cons_eq {n : String} {a : Assignment} (as : List Assignment)
    (h : a.name = n) : sumFor n (a :: as) = a.assigned + sumFor n as := by
  simp [sumFor, List.filter_cons, h]

theorem sumFor_cons_ne {n : String} {a : Assignment} (as : List Assignment)
    (h : ¬ a.name = n) : sumFor n (a :: as) = sumFor n as := by
  simp [sumFor, List.filter_cons, h]

theorem sumFor_eq_zero {n : String} {as : List Assignment}
    (h : ∀ a ∈ as, ¬ a.name = n) : sumFor n as = 0 := by
  have : as.filter (fun a => a.name = n) = [] := by
    simp only [List.filter_eq_nil_iff]
    intro a ha
    simpa using h a ha
  simp [sumFor, this]

theorem daySumTime_cons (a : Assignment) (as : List Assignment) :
    daySumTime (a :: as) = a.time + daySumTime as := by
  simp [daySumTime]

theorem forall₂_imp_mem {α β : Type _} {R S : α → β → Prop} :
    ∀ {l₁ : List α} {l₂ : List β}, List.Forall₂ R l₁ l₂ →
      (∀ a ∈ l₁, ∀ b ∈ l₂, R a b → S a b) → List.Forall₂ S l₁ l₂ := by
  intro l₁ l₂ h
  induction h with
  | nil => exact fun _ => List.Forall₂.nil
  | @cons a b l₁ l₂ hab _ ih =>
    intro himp
    refine List.Forall₂.cons (himp a (by simp) b (by simp) hab) (ih ?_)
    intro x hx y hy hr
    exact himp x (by simp [hx]) y (by simp [hy]) hr

theorem forall₂_mem_left {α β : Type _} {R : α → β → Prop} :
    ∀ {l₁ : List α} {l₂ : List β}, List.Forall₂ R l₁ l₂ →
      ∀ a ∈ l₁, ∃ b ∈ l₂, R a b := by
  intro l₁ l₂ h
  induction h with
  | nil => simp
  | @cons a b l₁ l₂ hab _ ih =>
    intro x hx
    rcases List.mem_cons.mp hx with hx | hx
    · exact ⟨b, by simp, hx ▸ hab⟩
    · rcases ih x hx with ⟨y, hy, hr⟩
      exact ⟨y, by simp [hy], hr⟩

theorem forall₂_mem_right {α β : Type _} {R : α → β → Prop} :
    ∀ {l₁ : List α} {l₂ : List β}, List.Forall₂ R l₁ l₂ →
      ∀ b ∈ l₂, ∃ a ∈ l₁, R a b := by
  intro l₁ l₂ h
  induction h with
  | nil => simp
  | @cons a b l₁ l₂ hab _ ih =>
    intro y hy
    rcases List.mem_cons.mp hy with hy | hy
    · exact ⟨a, by simp, hy ▸ hab⟩
    · rcases ih y hy with ⟨x, hx, hr⟩
      exact ⟨x, by simp [hx], hr⟩

theorem frameEq_refl (t : Task) : FrameEq t t := ⟨rfl, rfl, rfl, rfl⟩

theorem frameEq_trans {t u v : Task} (h₁ : FrameEq t u) (h₂ : FrameEq u v) :
    FrameEq t v := by
  obtain ⟨h1, h2, h3, h4⟩ := h₁
  obtain ⟨g1, g2, g3, g4⟩ := h₂
  exact ⟨g1.trans h1, g2.trans h2, g3.trans h3, g4.trans h4⟩

theorem timePer_eq_of_frameEq {t t' : Task} (h : FrameEq t t') :
    timePer t' = timePer t := by
  obtain ⟨_, h2, h3, _⟩ := h
  simp [timePer, h2, h3]

theorem names_eq_of_forall₂ {R : Task → Task → Prop}
    (hR : ∀ t t', R t t' → t'.name = t.name) :
    ∀ {l₁ l₂ : List Task}, List.Forall₂ R l₁ l₂ → names l₂ = names l₁ := by
  intro l₁ l₂ h
  induction h with
  | nil => rfl
  | @cons a b l₁ l₂ hab _ ih =>
    simpa [names, hR a b hab] using ih

theorem allocDay_cons_skip_rem {t : Task} {ts : List Task} {rt : ℚ} {any : Bool}
    (h1 : t.remaining ≤ 0) :
    allocDay rt any (t :: ts) = (t :: (allocDay rt any ts).1, (allocDay rt any ts).2) := by
  simp only [allocDay]
  rw [if_pos h1]

theorem allocDay_cons_skip_cost {t : Task} {ts : List Task} {rt : ℚ} {any : Bool}
    (h1 : ¬ t.remaining ≤ 0) (h2 : timePer t ≤ 0) :
    allocDay rt any (t :: ts) = (t :: (allocDay rt any ts).1, (allocDay rt any ts).2) := by
  simp only [allocDay]
  rw [if_neg h1, if_pos h2]

theorem allocDay_cons_assign {t : Task} {ts : List Task} {rt : ℚ} {any : Bool}
    (h1 : ¬ t.remaining ≤ 0) (h2 : ¬ timePer t ≤ 0)
    (hrt : rt > 0) (hfl : 0 < ⌊rt / timePer t⌋) :
    allocDay rt any (t :: ts) =
      (⟨t.name, t.remaining - min ⌊rt / timePer t⌋ t.remaining,
         t.time_per_item, t.difficulty, t.priority⟩ ::
        (allocDay (rt - ↑(min ⌊rt / timePer t⌋ t.remaining) * timePer t) true ts).1,
       ⟨t.name, min ⌊rt / timePer t⌋ t.remaining,
         ↑(min ⌊rt / timePer t⌋ t.remaining) * timePer t⟩ ::
        (allocDay (rt - ↑(min ⌊rt / timePer t⌋ t.remaining) * timePer t) true ts).2.1,
       (allocDay (rt - ↑(min ⌊rt / timePer t⌋ t.remaining) * timePer t) true ts).2.2) := by
  have hmi : (if rt > 0 then ⌊rt / timePer t⌋ else (0 : Int)) = ⌊rt / timePer t⌋ :=
    if_pos hrt
  simp only [allocDay, hmi]
  rw [if_neg h1, if_neg h2, if_pos hfl]

theorem allocDay_cons_forced {t : Task} {ts : List Task} {rt : ℚ} {any : Bool}
    (h1 : ¬ t.remaining ≤ 0) (h2 : ¬ timePer t ≤ 0)
    (hrt : rt > 0) (hfl : ¬ 0 < ⌊rt / timePer t⌋) (hany : any = false) :
    allocDay rt any (t :: ts) =
      (⟨t.name, t.remaining - 1, t.time_per_item, t.difficulty, t.priority⟩ ::
        (allocDay (rt - 1 * timePer t) true ts).1,
       ⟨t.name, 1, 1 * timePer t⟩ :: (allocDay (rt - 1 * timePer t) true ts).2.1,
       (allocDay (rt - 1 * timePer t) true ts).2.2) := by
  have hmi : (if rt > 0 then ⌊rt / timePer t⌋ else (0 : Int)) = ⌊rt / timePer t⌋ :=
    if_pos hrt
  simp only [allocDay, hmi]
  rw [if_neg h1, if_neg h2, if_neg hfl, if_pos ⟨hrt, by omega, hany⟩]

theorem allocDay_cons_skip_idle {t : Task} {ts : List Task} {rt : ℚ} {any : Bool}
    (h1 : ¬ t.remaining ≤ 0) (h2 : ¬ timePer t ≤ 0) (hrt : ¬ rt > 0) :
    allocDay rt any (t :: ts) = (t :: (allocDay rt any ts).1, (allocDay rt any ts).2) := by
  have hmi : (if rt > 0 then ⌊rt / timePer t⌋ else (0 : Int)) = 0 := if_neg hrt
  simp only [allocDay, hmi]
  rw [if_neg h1, if_neg h2, if_neg (by omega : ¬ (0 : Int) > 0),
    if_neg (fun hc => hrt hc.1)]

theorem allocDay_cons_skip_any {t : Task} {ts : List Task} {rt : ℚ}
    (h1 : ¬ t.remaining ≤ 0) (h2 : ¬ timePer t ≤ 0)
    (hfl : ¬ 0 < ⌊rt / timePer t⌋) :
    allocDay rt true (t :: ts) = (t :: (allocDay rt true ts).1, (allocDay rt true ts).2) := by
  by_cases hrt : rt > 0
  · have hmi : (if rt > 0 then ⌊rt / timePer t⌋ else (0 : Int)) = ⌊rt / timePer t⌋ :=
      if_pos hrt
    simp only [allocDay, hmi]
    rw [if_neg h1, if_neg h2, if_neg hfl, if_neg (by simp : ¬ (rt > 0 ∧ t.remaining > 0 ∧ true = false))]
  · exact allocDay_cons_skip_idle h1 h2 hrt

theorem sumFor_cons (n : String) (a : Assignment) (as : List Assignment) :
    sumFor n (a :: as) = (if a.name = n then a.assigned else 0) + sumFor n as := by
  by_cases h : a.name = n
  · rw [sumFor_cons_eq as h, if_pos h]
  · rw [sumFor_cons_ne as h, if_neg h]
    omega

theorem planSumFor_cons (n : String) (day : List Assignment)
    (plan : List (List Assignment)) :
    planSumFor n (day :: plan) = sumFor n day + planSumFor n plan := by
  simp [planSumFor]

theorem forall₂_compose {α β γ : Type _} {R : α → β → Prop} {S : β → γ → Prop} :
    ∀ {l₁ : List α} {l₂ : List β} {l₃ : List γ},
      List.Forall₂ R l₁ l₂ → List.Forall₂ S l₂ l₃ →
        List.Forall₂ (fun a c => ∃ b, R a b ∧ S b c) l₁ l₃ := by
  intro l₁ l₂ l₃ h
  induction h generalizing l₃ with
  | nil =>
    intro h₂
    cases h₂
    exact List.Forall₂.nil
  | @cons a b l₁ l₂ hab _ ih =>
    intro h₂
    cases h₂ with
    | cons hbc h₂ => exact List.Forall₂.cons ⟨b, hab, hbc⟩ (ih h₂)

theorem allocDay_spec (ts : List Task) : ∀ (rt : ℚ) (any : Bool),
    (∀ a ∈ (allocDay rt any ts).2.1, 0 < a.assigned ∧
        ∃ t ∈ ts, a.name = t.name ∧ 0 < timePer t ∧ 0 < t.remaining) ∧
    ((allocDay rt any ts).2.1.map fun a => a.name).Sublist (names ts) ∧
    (allocDay rt any ts).2.2 = rt - daySumTime (allocDay rt any ts).2.1 ∧
    ((names ts).Nodup →
      List.Forall₂ (fun t t' => FrameEq t t' ∧
          t'.remaining = t.remaining - sumFor t.name (allocDay rt any ts).2.1 ∧
          t'.remaining ≤ t.remaining ∧ (0 ≤ t.remaining → 0 ≤ t'.remaining))
        ts (allocDay rt any ts).1) := by
  induction ts with
  | nil =>
    intro rt any
    simp [allocDay, names, daySumTime]
  | cons t ts ih =>
    intro rt any
    have skip : ∀ (hd : allocDay rt any (t :: ts) =
        (t :: (allocDay rt any ts).1, (allocDay rt any ts).2)),
        (∀ a ∈ (allocDay rt any (t :: ts)).2.1, 0 < a.assigned ∧
            ∃ u ∈ t :: ts, a.name = u.name ∧ 0 < timePer u ∧ 0 < u.remaining) ∧
        ((allocDay rt any (t :: ts)).2.1.map fun a => a.name).Sublist (names (t :: ts)) ∧
        (allocDay rt any (t :: ts)).2.2 = rt - daySumTime (allocDay rt any (t :: ts)).2.1 ∧
        ((names (t :: ts)).Nodup →
          List.Forall₂ (fun u u' => FrameEq u u' ∧
              u'.remaining = u.remaining - sumFor u.name (allocDay rt any (t :: ts)).2.1 ∧
              u'.remaining ≤ u.remaining ∧ (0 ≤ u.remaining → 0 ≤ u'.remaining))
            (t :: ts) (allocDay rt any (t :: ts)).1) := by
      intro hd
      obtain ⟨ih1, ih2, ih3, ih4⟩ := ih rt any
      simp only [hd]
      refine ⟨?_, ?_, ih3, ?_⟩
      · intro a ha
        obtain ⟨hpos, u, hu, h⟩ := ih1 a ha
        exact ⟨hpos, u, List.mem_cons_of_mem _ hu, h⟩
      · exact ih2.cons _
      · intro hnd
        have hnd' : (names ts).Nodup := (List.nodup_cons.mp hnd).2
        have hnotin : t.name ∉ names ts := (List.nodup_cons.mp hnd).1
        have hz : sumFor t.name (allocDay rt any ts).2.1 = 0 := by
          apply sumFor_eq_zero
          intro a ha hc
          obtain ⟨_, u, hu, hname, _⟩ := ih1 a ha
          exact hnotin (hc ▸ hname ▸ List.mem_map_of_mem _ hu)
        exact List.Forall₂.cons ⟨frameEq_refl t, by omega, le_refl _, fun h => h⟩ (ih4 hnd')
    by_cases h1 : t.remaining ≤ 0
    · exact skip (allocDay_cons_skip_rem h1)
    · by_cases h2 : timePer t ≤ 0
      · exact skip (allocDay_cons_skip_cost h1 h2)
      · by_cases hrt : rt > 0
        · by_cases hfl : 0 < ⌊rt / timePer t⌋
          · -- normal assignment branch
            have hd := @allocDay_cons_assign t ts rt any h1 h2 hrt hfl
            have hA1 : 0 < min ⌊rt / timePer t⌋ t.remaining := lt_min hfl (by omega)
            obtain ⟨ih1, ih2, ih3, ih4⟩ :=
              ih (rt - ↑(min ⌊rt / timePer t⌋ t.remaining) * timePer t) true
            simp only [hd]
            refine ⟨?_, ?_, ?_, ?_⟩
            · intro a ha
              rcases List.mem_cons.mp ha with rfl | ha
              · exact ⟨hA1, t, List.mem_cons_self t ts, rfl, not_le.mp h2, by omega⟩
              · obtain ⟨hpos, u, hu, h⟩ := ih1 a ha
                exact ⟨hpos, u, List.mem_cons_of_mem _ hu, h⟩
            · simpa [names] using ih2.cons₂ t.name
            · rw [daySumTime_cons, ih3]
              ring
            · intro hnd
              have hnd' : (names ts).Nodup := (List.nodup_cons.mp hnd).2
              have hnotin : t.name ∉ names ts := (List.nodup_cons.mp hnd).1
              have hz : sumFor t.name
                  (allocDay (rt - ↑(min ⌊rt / timePer t⌋ t.remaining) * timePer t) true ts).2.1 = 0 := by
                apply sumFor_eq_zero
                intro a ha hc
                obtain ⟨_, u, hu, hname, _⟩ := ih1 a ha
                exact hnotin (hc ▸ hname ▸ List.mem_map_of_mem _ hu)
              refine List.Forall₂.cons
                ⟨frameEq_refl t, ?_, sub_le_self _ (le_of_lt hA1),
                 fun _ => sub_nonneg.mpr (min_le_right _ _)⟩ ?_
              · simp only [sumFor_cons, hz]
                simp
              · refine forall₂_imp_mem (ih4 hnd') ?_
                rintro u hu u' _ ⟨hf, hrem', hle, hnn⟩
                refine ⟨hf, ?_, hle, hnn⟩
                have hne : ¬ t.name = u.name := fun hc =>
                  hnotin (hc ▸ List.mem_map_of_mem _ hu)
                simp only [sumFor_cons, if_neg hne]
                omega
          · -- forced one-item branch (when nothing assigned yet) or skip
            cases any with
            | true => exact skip (allocDay_cons_skip_any h1 h2 hfl)
            | false =>
              have hd := @allocDay_cons_forced t ts rt false h1 h2 hrt hfl rfl
              obtain ⟨ih1, ih2, ih3, ih4⟩ := ih (rt - 1 * timePer t) true
              simp only [hd]
              refine ⟨?_, ?_, ?_, ?_⟩
              · intro a ha
                rcases List.mem_cons.mp ha with rfl | ha
                · exact ⟨Int.one_pos, t, List.mem_cons_self t ts, rfl, not_le.mp h2, by omega⟩
                · obtain ⟨hpos, u, hu, h⟩ := ih1 a ha
                  exact ⟨hpos, u, List.mem_cons_of_mem _ hu, h⟩
              · simpa [names] using ih2.cons₂ t.name
              · rw [daySumTime_cons, ih3]
                ring
              · intro hnd
                have hnd' : (names ts).Nodup := (List.nodup_cons.mp hnd).2
                have hnotin : t.name ∉ names ts := (List.nodup_cons.mp hnd).1
                have hz : sumFor t.name (allocDay (rt - 1 * timePer t) true ts).2.1 = 0 := by
                  apply sumFor_eq_zero
                  intro a ha hc
                  obtain ⟨_, u, hu, hname, _⟩ := ih1 a ha
                  exact hnotin (hc ▸ hname ▸ List.mem_map_of_mem _ hu)
                refine List.Forall₂.cons
                  ⟨frameEq_refl t, ?_, sub_le_self _ Int.one_pos.le,
                   fun _ => sub_nonneg.mpr (by omega : (1 : Int) ≤ t.remaining)⟩ ?_
                · simp only [sumFor_cons, hz]
                  simp
                · refine forall₂_imp_mem (ih4 hnd') ?_
                  rintro u hu u' _ ⟨hf, hrem', hle, hnn⟩
                  refine ⟨hf, ?_, hle, hnn⟩
                  have hne : ¬ t.name = u.name := fun hc =>
                    hnotin (hc ▸ List.mem_map_of_mem _ hu)
                  simp only [sumFor_cons, if_neg hne]
                  omega
        · exact skip (allocDay_cons_skip_idle h1 h2 hrt)

theorem allocDay_frame (ts : List Task) : ∀ (rt : ℚ) (any : Bool),
    List.Forall₂ FrameEq ts (allocDay rt any ts).1 := by
  induction ts with
  | nil =>
    intro rt any
    simp [allocDay]
  | cons t ts ih =>
    intro rt any
    by_cases h1 : t.remaining ≤ 0
    · simp only [allocDay_cons_skip_rem h1]
      exact List.Forall₂.cons (frameEq_refl t) (ih rt any)
    · by_cases h2 : timePer t ≤ 0
      · simp only [allocDay_cons_skip_cost h1 h2]
        exact List.Forall₂.cons (frameEq_refl t) (ih rt any)
      · by_cases hrt : rt > 0
        · by_cases hfl : 0 < ⌊rt / timePer t⌋
          · simp only [allocDay_cons_assign h1 h2 hrt hfl]
            exact List.Forall₂.cons ⟨rfl, rfl, rfl, rfl⟩ (ih _ true)
          · cases any with
            | true =>
              simp only [allocDay_cons_skip_any h1 h2 hfl]
              exact List.Forall₂.cons (frameEq_refl t) (ih rt true)
            | false =>
              simp only [allocDay_cons_forced h1 h2 hrt hfl rfl]
              exact List.Forall₂.cons ⟨rfl, rfl, rfl, rfl⟩ (ih _ true)
        · simp only [allocDay_cons_skip_idle h1 h2 hrt]
          exact List.Forall₂.cons (frameEq_refl t) (ih rt any)

theorem allocDay_no_time (ts : List Task) : ∀ (rt : ℚ) (any : Bool), rt ≤ 0 →
    (allocDay rt any ts).2.1 = [] ∧ (allocDay rt any ts).2.2 = rt := by
  induction ts with
  | nil =>
    intro rt any _
    simp [allocDay]
  | cons t ts ih =>
    intro rt any hrt0
    have hrt : ¬ rt > 0 := not_lt.mpr hrt0
    by_cases h1 : t.remaining ≤ 0
    · simp only [allocDay_cons_skip_rem h1]
      exact ih rt any hrt0
    · by_cases h2 : timePer t ≤ 0
      · simp only [allocDay_cons_skip_cost h1 h2]
        exact ih rt any hrt0
      · simp only [allocDay_cons_skip_idle h1 h2 hrt]
        exact ih rt any hrt0

theorem assign_time_le {t : Task} {rt : ℚ} (h2 : ¬ timePer t ≤ 0) :
    (↑(min ⌊rt / timePer t⌋ t.remaining) : ℚ) * timePer t ≤ rt := by
  have htp : (0 : ℚ) < timePer t := not_le.mp h2
  have h1 : (↑(min ⌊rt / timePer t⌋ t.remaining) : ℚ) ≤ ↑⌊rt / timePer t⌋ := by
    exact_mod_cast min_le_left _ _
  have h2' : (↑⌊rt / timePer t⌋ : ℚ) ≤ rt / timePer t := Int.floor_le _
  calc (↑(min ⌊rt / timePer t⌋ t.remaining) : ℚ) * timePer t
      ≤ (rt / timePer t) * timePer t := by
        exact mul_le_mul_of_nonneg_right (h1.trans h2') (le_of_lt htp)
    _ = rt := div_mul_cancel₀ rt (ne_of_gt htp)

theorem allocDay_true_nonneg (ts : List Task) : ∀ (rt : ℚ), 0 ≤ rt →
    0 ≤ (allocDay rt true ts).2.2 := by
  induction ts with
  | nil =>
    intro rt h
    simpa [allocDay] using h
  | cons t ts ih =>
    intro rt hrt0
    by_cases h1 : t.remaining ≤ 0
    · simp only [allocDay_cons_skip_rem h1]
      exact ih rt hrt0
    · by_cases h2 : timePer t ≤ 0
      · simp only [allocDay_cons_skip_cost h1 h2]
        exact ih rt hrt0
      · by_cases hrt : rt > 0
        · by_cases hfl : 0 < ⌊rt / timePer t⌋
          · simp only [allocDay_cons_assign h1 h2 hrt hfl]
            exact ih _ (sub_nonneg.mpr (assign_time_le h2))
          · simp only [allocDay_cons_skip_any h1 h2 hfl]
            exact ih rt hrt0
        · simp only [allocDay_cons_skip_idle h1 h2 hrt]
          exact ih rt hrt0

theorem allocDay_false_bound (ts : List Task) : ∀ (rt : ℚ), 0 ≤ rt →
    0 ≤ (allocDay rt false ts).2.2 ∨
    ∃ a t, (allocDay rt false ts).2.1 = [a] ∧ a.assigned = 1 ∧ t ∈ ts ∧
      a.name = t.name ∧ a.time = timePer t ∧ rt < a.time := by
  induction ts with
  | nil =>
    intro rt h
    left
    simpa [allocDay] using h
  | cons t ts ih =>
    intro rt hrt0
    by_cases h1 : t.remaining ≤ 0
    · simp only [allocDay_cons_skip_rem h1]
      rcases ih rt hrt0 with h | ⟨a, u, h⟩
      · exact Or.inl h
      · exact Or.inr ⟨a, u, h.1, h.2.1, List.mem_cons_of_mem _ h.2.2.1, h.2.2.2⟩
    · by_cases h2 : timePer t ≤ 0
      · simp only [allocDay_cons_skip_cost h1 h2]
        rcases ih rt hrt0 with h | ⟨a, u, h⟩
        · exact Or.inl h
        · exact Or.inr ⟨a, u, h.1, h.2.1, List.mem_cons_of_mem _ h.2.2.1, h.2.2.2⟩
      · by_cases hrt : rt > 0
        · by_cases hfl : 0 < ⌊rt / timePer t⌋
          · simp only [allocDay_cons_assign h1 h2 hrt hfl]
            exact Or.inl (allocDay_true_nonneg ts _ (sub_nonneg.mpr (assign_time_le h2)))
          · simp only [allocDay_cons_forced h1 h2 hrt hfl rfl]
            have htp : (0 : ℚ) < timePer t := not_le.mp h2
            have hlt : rt < timePer t := by
              by_contra hge
              exact hfl (Int.le_floor.mpr (by
                rw [le_div_iff₀ htp]
                simpa using not_lt.mp hge))
            have hneg : rt - 1 * timePer t ≤ 0 := by linarith
            obtain ⟨hnil, _⟩ := allocDay_no_time ts (rt - 1 * timePer t) true hneg
            refine Or.inr ⟨⟨t.name, 1, 1 * timePer t⟩, t, ?_, rfl,
              List.mem_cons_self t ts, rfl, by simp, by simpa using hlt⟩
            rw [hnil]
        · simp only [allocDay_cons_skip_idle h1 h2 hrt]
          rcases ih rt hrt0 with h | ⟨a, u, h⟩
          · exact Or.inl h
          · exact Or.inr ⟨a, u, h.1, h.2.1, List.mem_cons_of_mem _ h.2.2.1, h.2.2.2⟩

theorem allocDay_ne_nil (ts : List Task) : ∀ (rt : ℚ), 0 < rt →
    (∃ t ∈ ts, 0 < t.remaining ∧ 0 < timePer t) →
    (allocDay rt false ts).2.1 ≠ [] := by
  induction ts with
  | nil =>
    intro rt _ he
    simp at he
  | cons t ts ih =>
    intro rt hrt0 he
    have hrt : rt > 0 := hrt0
    by_cases h1 : t.remaining ≤ 0
    · simp only [allocDay_cons_skip_rem h1]
      apply ih rt hrt0
      rcases he with ⟨u, hu, hur, hut⟩
      rcases List.mem_cons.mp hu with rfl | hu
      · omega
      · exact ⟨u, hu, hur, hut⟩
    · by_cases h2 : timePer t ≤ 0
      · simp only [allocDay_cons_skip_cost h1 h2]
        apply ih rt hrt0
        rcases he with ⟨u, hu, hur, hut⟩
        rcases List.mem_cons.mp hu with rfl | hu
        · exact absurd hut (by simpa using h2)
        · exact ⟨u, hu, hur, hut⟩
      · by_cases hfl : 0 < ⌊rt / timePer t⌋
        · simp only [allocDay_cons_assign h1 h2 hrt hfl]
          simp
        · simp only [allocDay_cons_forced h1 h2 hrt hfl rfl]
          simp

theorem allocDays_frame (cs : List ℚ) : ∀ (ts : List Task),
    List.Forall₂ FrameEq ts (allocDays cs ts).1 := by
  induction cs with
  | nil =>
    intro ts
    simpa [allocDays] using List.forall₂_same.mpr fun t _ => frameEq_refl t
  | cons c cs ih =>
    intro ts
    simp only [allocDays]
    refine forall₂_imp_mem
      (forall₂_compose (allocDay_frame ts c false) (ih (allocDay c false ts).1)) ?_
    rintro t _ u _ ⟨m, h₁, h₂⟩
    exact frameEq_trans h₁ h₂

theorem names_allocDays (cs : List ℚ) (ts : List Task) :
    names (allocDays cs ts).1 = names ts :=
  names_eq_of_forall₂ (fun _ _ h => h.1) (allocDays_frame cs ts)

theorem allocDays_spec (cs : List ℚ) : ∀ (ts : List Task),
    ((allocDays cs ts).2.length = cs.length) ∧
    (∀ day ∈ (allocDays cs ts).2, ∀ a ∈ day, 0 < a.assigned ∧
        ∃ t ∈ ts, a.name = t.name ∧ 0 < timePer t) ∧
    (∀ day ∈ (allocDays cs ts).2, (day.map fun a => a.name).Sublist (names ts)) ∧
    ((names ts).Nodup →
      List.Forall₂ (fun t t' => FrameEq t t' ∧
          t'.remaining = t.remaining - planSumFor t.name (allocDays cs ts).2 ∧
          t'.remaining ≤ t.remaining ∧ (0 ≤ t.remaining → 0 ≤ t'.remaining))
        ts (allocDays cs ts).1) := by
  induction cs with
  | nil =>
    intro ts
    refine ⟨by simp [allocDays], by simp [allocDays], by simp [allocDays], fun _ => ?_⟩
    simp only [allocDays]
    refine List.forall₂_same.mpr fun t _ => ⟨frameEq_refl t, by simp [planSumFor], le_refl _, fun h => h⟩
  | cons c cs ih =>
    intro ts
    obtain ⟨d1, d2, d3, d4⟩ := allocDay_spec ts c false
    obtain ⟨i1, i2, i3, i4⟩ := ih (allocDay c false ts).1
    have hframe := allocDay_frame ts c false
    refine ⟨by simpa [allocDays] using i1, ?_, ?_, ?_⟩
    · intro day hday a ha
      simp only [allocDays] at hday
      rcases List.mem_cons.mp hday with rfl | hday
      · obtain ⟨hpos, t, ht, hn, htp, _⟩ := d1 a ha
        exact ⟨hpos, t, ht, hn, htp⟩
      · obtain ⟨hpos, u, hu, hn, htp⟩ := i2 day hday a ha
        obtain ⟨t, ht, hf⟩ := forall₂_mem_right hframe u hu
        exact ⟨hpos, t, ht, hn.trans hf.1, (timePer_eq_of_frameEq hf) ▸ htp⟩
    · intro day hday
      simp only [allocDays] at hday
      rcases List.mem_cons.mp hday with rfl | hday
      · exact d2
      · have := i3 day hday
        rwa [names_eq_of_forall₂ (fun _ _ h => h.1) hframe] at this
    · intro hnd
      have hnd' : (names (allocDay c false ts).1).Nodup := by
        rwa [names_eq_of_forall₂ (fun _ _ h => h.1) hframe]
      simp only [allocDays]
      refine forall₂_imp_mem (forall₂_compose (d4 hnd) (i4 hnd')) ?_
      rintro t _ u _ ⟨m, ⟨hf₁, hr₁, hle₁, hnn₁⟩, hf₂, hr₂, hle₂, hnn₂⟩
      refine ⟨frameEq_trans hf₁ hf₂, ?_, le_trans hle₂ hle₁, fun h => hnn₂ (hnn₁ h)⟩
      rw [planSumFor_cons, hr₂, hf₁.1, hr₁]
      omega

theorem allocDays_get (cs : List ℚ) : ∀ (ts : List Task) (d : Nat),
    (allocDays cs ts).2[d]? =
      (cs[d]?).map fun c => (allocDay c false (tasksAfter (cs.take d) ts)).2.1 := by
  induction cs with
  | nil =>
    intro ts d
    simp [allocDays]
  | cons c cs ih =>
    intro ts d
    cases d with
    | zero => simp [allocDays, tasksAfter]
    | succ d =>
      simp only [allocDays, List.getElem?_cons_succ, List.take_succ_cons]
      exact ih (allocDay c false ts).1 d

theorem prioLe_trans : ∀ a b c : Task,
    (decide (a.priority ≤ b.priority)) = true →
    (decide (b.priority ≤ c.priority)) = true →
    (decide (a.priority ≤ c.priority)) = true := by
  intro a b c hab hbc
  simp only [decide_eq_true_eq] at *
  omega

theorem prioLe_total : ∀ a b : Task,
    ((decide (a.priority ≤ b.priority)) || (decide (b.priority ≤ a.priority))) = true := by
  intro a b
  simp only [Bool.or_eq_true, decide_eq_true_eq]
  omega

theorem sortTasks_perm (tasks : List Task) : (sortTasks tasks).Perm tasks :=
  List.mergeSort_perm tasks _

theorem sortTasks_sorted (tasks : List Task) :
    (sortTasks tasks).Pairwise fun a b => a.priority ≤ b.priority := by
  have := List.sorted_mergeSort prioLe_trans prioLe_total tasks
  exact this.imp fun h => by simpa using h

theorem sortTasks_stable (tasks : List Task) {a b : Task}
    (hab : a.priority ≤ b.priority) (hsub : [a, b].Sublist tasks) :
    [a, b].Sublist (sortTasks tasks) :=
  List.pair_sublist_mergeSort prioLe_trans prioLe_total (by simpa using hab) hsub

theorem sorted_pair_sublist {l : List Task}
    (hs : l.Pairwise fun a b => a.priority ≤ b.priority) {a b : Task}
    (ha : a ∈ l) (hb : b ∈ l) (hab : a.priority < b.priority) :
    [a, b].Sublist l := by
  induction l with
  | nil => cases ha
  | cons x l ih =>
    have hx := List.pairwise_cons.mp hs
    rcases List.mem_cons.mp hb with rfl | hb2
    · rcases List.mem_cons.mp ha with rfl | ha2
      · omega
      · have := hx.1 a ha2
        omega
    · rcases List.mem_cons.mp ha with rfl | ha2
      · exact (List.singleton_sublist.mpr hb2).cons₂ _
      · exact (ih hx.2 ha2 hb2).cons _

theorem sublist_pair_keep {α : Type _} {l l' : List α} (h : l'.Sublist l)
    (hnd : l.Nodup) {a b : α} (hab : [a, b].Sublist l)
    (ha : a ∈ l') (hb : b ∈ l') : [a, b].Sublist l' := by
  induction h with
  | slnil => cases ha
  | @cons l₁ l₂ x h ih =>
    have hnd' : l₂.Nodup := (List.nodup_cons.mp hnd).2
    have hx : x ∉ l₂ := (List.nodup_cons.mp hnd).1
    cases hab with
    | cons _ hab' => exact ih hnd' hab' ha hb
    | cons₂ _ hb' =>
      exact absurd (h.subset ha) hx
  | @cons₂ l₁ l₂ x h ih =>
    have hnd' : l₂.Nodup := (List.nodup_cons.mp hnd).2
    have hx : x ∉ l₂ := (List.nodup_cons.mp hnd).1
    cases hab with
    | cons _ hab' =>
      have ha2 : a ∈ l₂ := hab'.subset (by simp)
      have hb2 : b ∈ l₂ := hab'.subset (by simp)
      have ha1 : a ∈ l₁ := by
        rcases List.mem_cons.mp ha with rfl | h'
        · exact absurd ha2 hx
        · exact h'
      have hb1 : b ∈ l₁ := by
        rcases List.mem_cons.mp hb with rfl | h'
        · exact absurd hb2 hx
        · exact h'
      exact (ih hnd' hab' ha1 hb1).cons _
    | cons₂ _ hb' =>
      have hb2 : b ∈ l₂ := hb'.subset (by simp)
      have hbl : b ∈ l₁ := by
        rcases List.mem_cons.mp hb with hc | hbl
        · exact absurd (hc ▸ hb2) hx
        · exact hbl
      exact (List.singleton_sublist.mpr hbl).cons₂ _

theorem map_eq_of_forall₂ {α β : Type _} {R : α → α → Prop} {f : α → β}
    (hR : ∀ a b, R a b → f b = f a) :
    ∀ {l₁ l₂ : List α}, List.Forall₂ R l₁ l₂ → l₂.map f = l₁.map f := by
  intro l₁ l₂ h
  induction h with
  | nil => rfl
  | @cons a b l₁ l₂ hab _ ih => simpa [hR a b hab] using ih

theorem names_sortTasks_nodup {tasks : List Task} (hnd : (names tasks).Nodup) :
    (names (sortTasks tasks)).Nodup := by
  have hp : (names (sortTasks tasks)).Perm (names tasks) := by
    simpa [names] using (sortTasks_perm tasks).map fun t => t.name
  exact hp.nodup_iff.mpr hnd

theorem alloc_conservation (caps : List ℚ) (tasks : List Task)
    (hnd : (names tasks).Nodup) :
    ∀ t ∈ tasks, ∃ t' ∈ (allocate_by_priority caps tasks).1,
      FrameEq t t' ∧
      t'.remaining = t.remaining - planSumFor t.name (allocate_by_priority caps tasks).2 ∧
      t'.remaining ≤ t.remaining ∧ (0 ≤ t.remaining → 0 ≤ t'.remaining) := by
  intro t ht
  have hts : t ∈ sortTasks tasks := (sortTasks_perm tasks).mem_iff.mpr ht
  have h4 := (allocDays_spec caps (sortTasks tasks)).2.2.2 (names_sortTasks_nodup hnd)
  obtain ⟨t', ht', hf, hr, hle, hnn⟩ := forall₂_mem_left h4 t hts
  exact ⟨t', ht', hf, hr, hle, hnn⟩

/-- C1: for every task (in a task set with the spec's invariants: unique
names, non-negative `remaining`), the remaining count after
`allocate_by_priority` equals the remaining before minus the total count
assigned to that task's name over all days of the returned plan, and the
final remaining is never negative. -/
theorem C1_conservation (caps : List ℚ) (tasks : List Task)
    (hnd : (names tasks).Nodup) (hr : ∀ t ∈ tasks, 0 ≤ t.remaining) :
    ∀ t ∈ tasks, ∃ t' ∈ (allocate_by_priority caps tasks).1,
      t'.name = t.name ∧
      t'.remaining = t.remaining -
        planSumFor t.name (allocate_by_priority caps tasks).2 ∧
      0 ≤ t'.remaining := by
  intro t ht
  obtain ⟨t', ht', hf, hrem, _, hnn⟩ := alloc_conservation caps tasks hnd t ht
  exact ⟨t', ht', hf.1, hrem, hnn (hr t ht)⟩

theorem C1_conservation_witness :
    (names [(⟨"X", 3, 1, 1, 1⟩ : Task)]).Nodup ∧
    (∃ t' ∈ (allocate_by_priority [2, 1] [⟨"X", 3, 1, 1, 1⟩]).1,
      t'.name = (⟨"X", 3, 1, 1, 1⟩ : Task).name ∧
      t'.remaining = (⟨"X", 3, 1, 1, 1⟩ : Task).remaining -
        planSumFor (⟨"X", 3, 1, 1, 1⟩ : Task).name
          (allocate_by_priority [2, 1] [⟨"X", 3, 1, 1, 1⟩]).2 ∧
      0 ≤ t'.remaining) :=
  ⟨by simp [names], C1_conservation [2, 1] [⟨"X", 3, 1, 1, 1⟩] (by simp [names])
    (by intro t ht; simp at ht; simp [ht]) ⟨"X", 3, 1, 1, 1⟩ (by simp)⟩

/-- C3: on capacities `[0.5]` and a single task with `remaining = 1`,
`time_per_item = 1.0`, `difficulty = 1.0` (any name, any priority),
`allocate_by_priority` force-assigns 1 unit on day 0 even though the item
costs 1.0 h > 0.5 h, and the task's remaining ends at 0. -/
theorem C3_force_assignment (nm : String) (p : Int) :
    allocate_by_priority [1/2] [⟨nm, 1, 1, 1, p⟩] =
      ([⟨nm, 0, 1, 1, p⟩], [[⟨nm, 1, 1⟩]]) := by
  norm_num [allocate_by_priority, sortTasks, List.mergeSort_singleton, allocDays,
    allocDay, timePer]

/-- C4: in a task set with unique names, a task whose effective per-item
cost `time_per_item * difficulty` is `≤ 0` is never assigned on any day —
no assignment record with its name appears anywhere in the plan — and its
remaining is unchanged (the total embedded function raises no error). -/
theorem C4_degenerate_excluded (caps : List ℚ) (tasks : List Task)
    (hnd : (names tasks).Nodup) (t : Task) (ht : t ∈ tasks)
    (hdeg : timePer t ≤ 0) :
    (∀ day ∈ (allocate_by_priority caps tasks).2, ∀ a ∈ day, a.name ≠ t.name) ∧
    (∃ t' ∈ (allocate_by_priority caps tasks).1, t'.name = t.name ∧
      t'.remaining = t.remaining) := by
  have hndS := names_sortTasks_nodup hnd
  have hts : t ∈ sortTasks tasks := (sortTasks_perm tasks).mem_iff.mpr ht
  have hnone : ∀ day ∈ (allocate_by_priority caps tasks).2, ∀ a ∈ day, a.name ≠ t.name := by
    intro day hday a ha hc
    obtain ⟨_, u, hu, hn, htp⟩ :=
      (allocDays_spec caps (sortTasks tasks)).2.1 day hday a ha
    have : u = t :=
      List.inj_on_of_nodup_map hndS hu hts (by rw [← hn, hc])
    rw [this] at htp
    exact absurd htp (not_lt.mpr hdeg)
  refine ⟨hnone, ?_⟩
  obtain ⟨t', ht', hf, hrem, _, _⟩ := alloc_conservation caps tasks hnd t ht
  have hz : planSumFor t.name (allocate_by_priority caps tasks).2 = 0 := by
    have : ∀ day ∈ (allocate_by_priority caps tasks).2, sumFor t.name day = 0 := by
      intro day hday
      exact sumFor_eq_zero fun a ha hc => hnone day hday a ha hc
    simp only [planSumFor]
    rw [List.map_congr_left fun day hday => this day hday]
    simp
  exact ⟨t', ht', hf.1, by omega⟩

theorem C4_degenerate_excluded_witness :
    (∀ day ∈ (allocate_by_priority [1] [⟨"a", 1, 0, 1, 1⟩]).2, ∀ a ∈ day,
      a.name ≠ (⟨"a", 1, 0, 1, 1⟩ : Task).name) ∧
    (∃ t' ∈ (allocate_by_priority [1] [⟨"a", 1, 0, 1, 1⟩]).1,
      t'.name = (⟨"a", 1, 0, 1, 1⟩ : Task).name ∧
      t'.remaining = (⟨"a", 1, 0, 1, 1⟩ : Task).remaining) :=
  C4_degenerate_excluded [1] [⟨"a", 1, 0, 1, 1⟩] (by simp [names])
    ⟨"a", 1, 0, 1, 1⟩ (by simp) (by norm_num [timePer])

/-- C6: `allocate_by_priority` changes nothing but `remaining`: the
multiset of (name, time_per_item, difficulty, priority) tuples of the
returned task list is exactly that of the input, and (the embedding being
a pure function of the read-only capacities) the capacities are untouched. -/
theorem C6_frame (caps : List ℚ) (tasks : List Task) :
    ((allocate_by_priority caps tasks).1.map eraseRemaining).Perm
      (tasks.map eraseRemaining) := by
  have h1 : (allocate_by_priority caps tasks).1.map eraseRemaining =
      (sortTasks tasks).map eraseRemaining := by
    refine map_eq_of_forall₂ ?_ (allocDays_frame caps (sortTasks tasks))
    intro a b hab
    obtain ⟨h1, h2, h3, h4⟩ := hab
    simp [eraseRemaining, h1, h2, h3, h4]
  rw [h1]
  exact (sortTasks_perm tasks).map eraseRemaining

/-- C2 counterexample: with capacities `[1]` (so `capacities[0] > 0`) and a
single task with `remaining = 1 > 0` at the start of day 0 but degenerate
cost `time_per_item = 0`, the returned plan's day-0 assignment list is
empty, contradicting the claim that it must be non-empty. -/
theorem C2_counterexample :
    (0 : ℚ) < 1 ∧
    tasksAfter ([(1 : ℚ)].take 0) (sortTasks [⟨"a", 1, 0, 1, 1⟩]) =
      [⟨"a", 1, 0, 1, 1⟩] ∧
    (0 : Int) < (⟨"a", 1, 0, 1, 1⟩ : Task).remaining ∧
    (allocate_by_priority [1] [⟨"a", 1, 0, 1, 1⟩]).2 = [[]] := by
  refine ⟨by norm_num, by simp [tasksAfter, allocDays, sortTasks,
    List.mergeSort_singleton], by norm_num, ?_⟩
  norm_num [allocate_by_priority, sortTasks, List.mergeSort_singleton, allocDays,
    allocDay, timePer]

/-- C2 (amended): for every day `d` with `capacities[d] > 0`, if at the
start of day `d`'s pass at least one task has `remaining > 0` **and a
positive effective per-item cost**, then the returned plan's assignment
list for day `d` is non-empty.  (The extra positive-cost condition is
forced by the counterexample: a degenerate-cost task is skipped before the
force rule can fire.) -/
theorem C2_amended_capacity_or_force (caps : List ℚ) (tasks : List Task)
    (d : Nat) (cap : ℚ) (hc : caps[d]? = some cap) (hcap : 0 < cap)
    (he : ∃ t ∈ tasksAfter (caps.take d) (sortTasks tasks),
        0 < t.remaining ∧ 0 < timePer t) :
    ∀ dayl, (allocate_by_priority caps tasks).2[d]? = some dayl → dayl ≠ [] := by
  intro dayl hd
  have hget := allocDays_get caps (sortTasks tasks) d
  rw [hc] at hget
  have hd' : (allocate_by_priority caps tasks).2[d]? =
      some (allocDay cap false (tasksAfter (caps.take d) (sortTasks tasks))).2.1 := hget
  rw [hd] at hd'
  have heq : dayl =
      (allocDay cap false (tasksAfter (caps.take d) (sortTasks tasks))).2.1 :=
    Option.some_inj.mp hd'
  rw [heq]
  exact allocDay_ne_nil _ cap hcap he

theorem C2_amended_capacity_or_force_witness :
    [(⟨"X", 1, 1⟩ : Assignment)] ≠ [] :=
  C2_amended_capacity_or_force [1/2] [⟨"X", 1, 1, 1, 1⟩] 0 (1/2) rfl (by norm_num)
    (by
      refine ⟨⟨"X", 1, 1, 1, 1⟩, ?_, by norm_num, by norm_num [timePer]⟩
      simp [tasksAfter, allocDays, sortTasks, List.mergeSort_singleton])
    [⟨"X", 1, 1⟩]
    (by norm_num [allocate_by_priority, sortTasks, List.mergeSort_singleton,
      allocDays, allocDay, timePer])

/-- C5: the allocator considers tasks in ascending priority order with
stable tie-breaking — the sorted list is pairwise ordered by priority, a
pair in input order with equal priorities keeps its order, and within any
single day of the plan (unique names assumed) an assignment to the task
with the smaller priority number precedes an assignment to the other. -/
theorem C5_priority_precedence (tasks : List Task) :
    ((sortTasks tasks).Pairwise fun a b => a.priority ≤ b.priority) ∧
    (∀ a b : Task, a.priority = b.priority → [a, b].Sublist tasks →
      [a, b].Sublist (sortTasks tasks)) ∧
    (∀ (caps : List ℚ), (names tasks).Nodup →
      ∀ a b : Task, a ∈ tasks → b ∈ tasks → a.priority < b.priority →
      ∀ (d : Nat) (dayl : List Assignment),
        (allocate_by_priority caps tasks).2[d]? = some dayl →
        a.name ∈ dayl.map (fun x => x.name) → b.name ∈ dayl.map (fun x => x.name) →
        [a.name, b.name].Sublist (dayl.map fun x => x.name)) := by
  refine ⟨sortTasks_sorted tasks, ?_, ?_⟩
  · intro a b hab hsub
    exact sortTasks_stable tasks (le_of_eq hab) hsub
  · intro caps hnd a b ha hb hab d dayl hd hload hbload
    have hndS := names_sortTasks_nodup hnd
    have haS : a ∈ sortTasks tasks := (sortTasks_perm tasks).mem_iff.mpr ha
    have hbS : b ∈ sortTasks tasks := (sortTasks_perm tasks).mem_iff.mpr hb
    have hpair : [a, b].Sublist (sortTasks tasks) :=
      sorted_pair_sublist (sortTasks_sorted tasks) haS hbS hab
    have hpairN : [a.name, b.name].Sublist (names (sortTasks tasks)) := by
      simpa [names] using hpair.map fun t => t.name
    have hdayl : dayl ∈ (allocate_by_priority caps tasks).2 := List.getElem?_mem hd
    have hsub : (dayl.map fun x => x.name).Sublist (names (sortTasks tasks)) :=
      (allocDays_spec caps (sortTasks tasks)).2.2.1 dayl hdayl
    exact sublist_pair_keep hsub hndS hpairN hload hbload

theorem C5_priority_precedence_witness :
    ["A", "B"].Sublist
      ([(⟨"A", 1, 1⟩ : Assignment), ⟨"B", 1, 1⟩].map fun x => x.name) :=
  (C5_priority_precedence [⟨"A", 1, 1, 1, 1⟩, ⟨"B", 1, 1, 1, 2⟩]).2.2 [2]
    (by simp [names]) ⟨"A", 1, 1, 1, 1⟩ ⟨"B", 1, 1, 1, 2⟩ (by simp) (by simp)
    (by norm_num) 0 [⟨"A", 1, 1⟩, ⟨"B", 1, 1⟩]
    (by norm_num [allocate_by_priority, sortTasks, allocDays, allocDay, timePer,
      List.mergeSort])
    (by simp) (by simp)

/-- C10: with non-negative capacities, a day's total recorded time exceeds
that day's capacity only when the day's list is exactly one forced
assignment of count 1 whose time is the named task's effective per-item
cost; any other day's total recorded time is at most the capacity. -/
theorem C10_bounded_overflow (caps : List ℚ) (tasks : List Task)
    (hcaps : ∀ c ∈ caps, 0 ≤ c) (d : Nat) (cap : ℚ) (dayl : List Assignment)
    (hc : caps[d]? = some cap)
    (hd : (allocate_by_priority caps tasks).2[d]? = some dayl) :
    (cap < daySumTime dayl →
      ∃ a, dayl = [a] ∧ a.assigned = 1 ∧
        ∃ t ∈ tasks, a.name = t.name ∧ a.time = timePer t) ∧
    ((¬ ∃ a, dayl = [a] ∧ a.assigned = 1) → daySumTime dayl ≤ cap) := by
  have hcap0 : 0 ≤ cap := hcaps cap (List.getElem?_mem hc)
  have hget := allocDays_get caps (sortTasks tasks) d
  rw [hc] at hget
  have hd' : (allocate_by_priority caps tasks).2[d]? =
      some (allocDay cap false (tasksAfter (caps.take d) (sortTasks tasks))).2.1 := hget
  rw [hd] at hd'
  have heq : dayl =
      (allocDay cap false (tasksAfter (caps.take d) (sortTasks tasks))).2.1 :=
    Option.some_inj.mp hd'
  set tsd := tasksAfter (caps.take d) (sortTasks tasks) with htsd
  have hframe : List.Forall₂ FrameEq (sortTasks tasks) tsd :=
    allocDays_frame (caps.take d) (sortTasks tasks)
  have hrtEq : (allocDay cap false tsd).2.2 =
      cap - daySumTime (allocDay cap false tsd).2.1 :=
    (allocDay_spec tsd cap false).2.2.1
  have hsum_le : 0 ≤ (allocDay cap false tsd).2.2 →
      daySumTime dayl ≤ cap := by
    intro h
    rw [hrtEq] at h
    rw [heq]
    linarith
  rcases allocDay_false_bound tsd cap hcap0 with hok | ⟨a, t, hlist, h1, hmem, hn, htime, _⟩
  · refine ⟨fun hlt => absurd (hsum_le hok) (not_le.mpr hlt), fun _ => hsum_le hok⟩
  · have hsingle : dayl = [a] := heq.trans hlist
    have hta : ∃ t₀ ∈ tasks, a.name = t₀.name ∧ a.time = timePer t₀ := by
      obtain ⟨t₀, ht₀, hf⟩ := forall₂_mem_right hframe t hmem
      refine ⟨t₀, (sortTasks_perm tasks).mem_iff.mp ht₀, hn.trans hf.1, ?_⟩
      rw [htime, timePer_eq_of_frameEq hf]
    refine ⟨fun _ => ⟨a, hsingle, h1, hta⟩, fun hno => absurd ⟨a, hsingle, h1⟩ hno⟩

theorem C10_bounded_overflow_witness :
    ∃ a, [(⟨"X", 1, 1⟩ : Assignment)] = [a] ∧ a.assigned = 1 ∧
      ∃ t ∈ [(⟨"X", 1, 1, 1, 1⟩ : Task)], a.name = t.name ∧ a.time = timePer t :=
  (C10_bounded_overflow [1/2] [⟨"X", 1, 1, 1, 1⟩] (by norm_num) 0 (1/2)
    [⟨"X", 1, 1⟩] rfl
    (by norm_num [allocate_by_priority, sortTasks, List.mergeSort_singleton,
      allocDays, allocDay, timePer])).1
    (by norm_num [daySumTime])

/-- C7: the Replanner clamps the completed-today input into
`[0, max(0, total_assigned - prev)]` — a negative input becomes 0, an
input above the bound becomes the bound with the warning flag set — and
on `total_assigned = 5`, `prev = 2`, input `10` the clamp yields `3` with
a warning and the derived remaining is `0`. -/
theorem C7_clamp (done total_assigned prev : Int) :
    0 ≤ (clamp_done done total_assigned prev).1 ∧
    (clamp_done done total_assigned prev).1 ≤ max_possible total_assigned prev ∧
    (done < 0 → (clamp_done done total_assigned prev).1 = 0) ∧
    (done > max_possible total_assigned prev →
      (clamp_done done total_assigned prev).1 = max_possible total_assigned prev ∧
      (clamp_done done total_assigned prev).2 = true) ∧
    clamp_done 10 5 2 = (3, true) ∧
    derive_remaining 5 2 (clamp_done 10 5 2).1 = 0 := by
  refine ⟨?_, ?_, ?_, ?_, by decide, by decide⟩
  · simp only [clamp_done, max_possible]
    split <;> split <;> omega
  · simp only [clamp_done, max_possible]
    split <;> split <;> omega
  · intro h
    simp only [clamp_done, max_possible]
    split <;> split <;> omega
  · intro h
    have hd0 : ¬ done < 0 := by
      have := le_max_left 0 (total_assigned - prev)
      simp only [max_possible] at h
      omega
    simp only [clamp_done, max_possible] at h ⊢
    rw [if_neg hd0, if_pos (by omega)]
    exact ⟨rfl, rfl⟩

theorem C7_clamp_witness :
    (clamp_done (-1) 5 2).1 = 0 ∧
    ((clamp_done 10 5 2).1 = max_possible 5 2 ∧ (clamp_done 10 5 2).2 = true) :=
  ⟨(C7_clamp (-1) 5 2).2.2.1 (by decide),
   (C7_clamp 10 5 2).2.2.2.1 (by decide)⟩

/-- C8: each derived replan task has
`remaining = max(0, total_assigned - prev - done_today)`, priority equal to
the task's `first_day`, difficulty 1.0 and the aggregated `time_per_item`;
and re-running the allocator on the derived set (whose names, coming from
dict keys, are unique) never assigns any task more than its remaining in
total. -/
theorem C8_replan (tasks_info : List (String × AggInfo)) (plan_rows : List PlanRow)
    (today : Int) (completed : String → Int)
    (hnd : (tasks_info.map fun p => p.1).Nodup) :
    (∀ p ∈ tasks_info,
      (make_remaining_task p.1 p.2 plan_rows today (completed p.1)).remaining =
        max 0 (p.2.total_assigned - prevAssigned plan_rows p.1 today - completed p.1) ∧
      (make_remaining_task p.1 p.2 plan_rows today (completed p.1)).priority =
        p.2.first_day ∧
      (make_remaining_task p.1 p.2 plan_rows today (completed p.1)).difficulty = 1 ∧
      (make_remaining_task p.1 p.2 plan_rows today (completed p.1)).time_per_item =
        p.2.time_per_item) ∧
    (∀ (caps : List ℚ),
      ∀ t ∈ make_remaining_tasks tasks_info plan_rows today completed,
        planSumFor t.name
          (allocate_by_priority caps
            (make_remaining_tasks tasks_info plan_rows today completed)).2 ≤
          t.remaining) := by
  constructor
  · intro p _
    refine ⟨?_, rfl, rfl, rfl⟩
    simp only [make_remaining_task, derive_remaining]
    split <;> omega
  · intro caps t ht
    have hnames : names (make_remaining_tasks tasks_info plan_rows today completed) =
        tasks_info.map fun p => p.1 := by
      simp [names, make_remaining_tasks, make_remaining_task]
    have hndT : (names (make_remaining_tasks tasks_info plan_rows today completed)).Nodup := by
      rw [hnames]
      exact hnd
    obtain ⟨t', _, _, hrem, _, hnn⟩ :=
      alloc_conservation caps _ hndT t ht
    have hr0 : 0 ≤ t.remaining := by
      obtain ⟨p, _, rfl⟩ := List.mem_map.mp ht
      simp only [make_remaining_task, derive_remaining]
      split <;> omega
    have := hnn hr0
    omega

theorem C8_replan_witness :
    ((make_remaining_task "X" ⟨5, 1, 1/2⟩ [⟨1, "X", 2, 1⟩, ⟨2, "X", 3, 3/2⟩] 2
        3).remaining =
      max 0 ((5 : Int) - prevAssigned [⟨1, "X", 2, 1⟩, ⟨2, "X", 3, 3/2⟩] "X" 2 - 3) ∧
      (make_remaining_task "X" ⟨5, 1, 1/2⟩ [⟨1, "X", 2, 1⟩, ⟨2, "X", 3, 3/2⟩] 2
        3).priority = 1 ∧
      (make_remaining_task "X" ⟨5, 1, 1/2⟩ [⟨1, "X", 2, 1⟩, ⟨2, "X", 3, 3/2⟩] 2
        3).difficulty = 1 ∧
      (make_remaining_task "X" ⟨5, 1, 1/2⟩ [⟨1, "X", 2, 1⟩, ⟨2, "X", 3, 3/2⟩] 2
        3).time_per_item = 1/2) :=
  (C8_replan [("X", ⟨5, 1, 1/2⟩)] [⟨1, "X", 2, 1⟩, ⟨2, "X", 3, 3/2⟩] 2
    (fun _ => 3) (by simp)).1 ("X", ⟨5, 1, 1/2⟩) (by simp)

theorem rowsFor_append_ne {n : String} {r : PlanRow} (rows : List PlanRow)
    (h : ¬ r.name = n) : rowsFor n (rows ++ [r]) = rowsFor n rows := by
  simp [rowsFor, List.filter_append, h]

theorem rowsFor_append_eq {n : String} {r : PlanRow} (rows : List PlanRow)
    (h : r.name = n) : rowsFor n (rows ++ [r]) = rowsFor n rows ++ [r] := by
  simp [rowsFor, List.filter_append, h]

theorem samplesFor_append_ne {n : String} {r : PlanRow} (rows : List PlanRow)
    (h : ¬ r.name = n) : samplesFor n (rows ++ [r]) = samplesFor n rows := by
  simp [samplesFor, List.filter_append, h]

theorem samplesFor_append_eq {n : String} {r : PlanRow} (rows : List PlanRow)
    (h : r.name = n) :
    samplesFor n (rows ++ [r]) = samplesFor n rows ++
      (if r.assigned > 0 then [r.time / (r.assigned : ℚ)] else []) := by
  by_cases ha : r.assigned > 0
  · simp [samplesFor, List.filter_append, h, ha]
  · simp [samplesFor, List.filter_append, h, ha]

theorem lookupAcc_mem {acc : List (String × AggAcc)} {n : String} {a : AggAcc}
    (h : lookupAcc acc n = some a) : (n, a) ∈ acc := by
  induction acc with
  | nil => simp [lookupAcc] at h
  | cons p rest ih =>
    obtain ⟨m, b⟩ := p
    simp only [lookupAcc] at h
    by_cases hm : m = n
    · rw [if_pos hm] at h
      subst hm
      rw [Option.some_inj.mp h] at *
      exact List.mem_cons_self _ _
    · rw [if_neg hm] at h
      exact List.mem_cons_of_mem _ (ih h)

theorem lookupAcc_none {acc : List (String × AggAcc)} {n : String}
    (h : lookupAcc acc n = none) : n ∉ acc.map fun p => p.1 := by
  induction acc with
  | nil => simp
  | cons p rest ih =>
    obtain ⟨m, b⟩ := p
    simp only [lookupAcc] at h
    by_cases hm : m = n
    · rw [if_pos hm] at h
      cases h
    · rw [if_neg hm] at h
      simp only [List.map_cons, List.mem_cons]
      push_neg
      exact ⟨fun hc => hm hc.symm, ih h⟩

theorem upsertAcc_cons_eq {m n : String} {b : AggAcc} (rest : List (String × AggAcc))
    (a : AggAcc) (h : m = n) : upsertAcc ((m, b) :: rest) n a = (n, a) :: rest := by
  simp [upsertAcc, h]

theorem upsertAcc_cons_ne {m n : String} {b : AggAcc} (rest : List (String × AggAcc))
    (a : AggAcc) (h : ¬ m = n) :
    upsertAcc ((m, b) :: rest) n a = (m, b) :: upsertAcc rest n a := by
  simp [upsertAcc, h]

theorem mem_keys_upsertAcc (acc : List (String × AggAcc)) (n k : String) (a : AggAcc) :
    (k ∈ (upsertAcc acc n a).map fun p => p.1) ↔
      (k ∈ acc.map fun p => p.1) ∨ k = n := by
  induction acc with
  | nil => simp [upsertAcc]
  | cons p rest ih =>
    obtain ⟨m, b⟩ := p
    by_cases hm : m = n
    · subst hm
      rw [upsertAcc_cons_eq rest a rfl]
      simp only [List.map_cons, List.mem_cons]
      tauto
    · rw [upsertAcc_cons_ne rest a hm]
      simp only [List.map_cons, List.mem_cons, ih]
      tauto

theorem nodup_keys_upsertAcc {acc : List (String × AggAcc)} (n : String) (a : AggAcc)
    (hnd : (acc.map fun p => p.1).Nodup) :
    ((upsertAcc acc n a).map fun p => p.1).Nodup := by
  induction acc with
  | nil => simp [upsertAcc]
  | cons p rest ih =>
    obtain ⟨m, b⟩ := p
    simp only [List.map_cons, List.nodup_cons] at hnd
    by_cases hm : m = n
    · subst hm
      rw [upsertAcc_cons_eq rest a rfl]
      simp only [List.map_cons, List.nodup_cons]
      exact ⟨hnd.1, hnd.2⟩
    · rw [upsertAcc_cons_ne rest a hm]
      simp only [List.map_cons, List.nodup_cons]
      refine ⟨?_, ih hnd.2⟩
      rw [mem_keys_upsertAcc]
      push_neg
      exact ⟨hnd.1, hm⟩

theorem mem_upsertAcc {acc : List (String × AggAcc)} {n : String} {a : AggAcc}
    (hnd : (acc.map fun p => p.1).Nodup) :
    ∀ q ∈ upsertAcc acc n a, q = (n, a) ∨ (q.1 ≠ n ∧ q ∈ acc) := by
  induction acc with
  | nil =>
    intro q hq
    simp only [upsertAcc, List.mem_singleton] at hq
    exact Or.inl hq
  | cons p rest ih =>
    obtain ⟨m, b⟩ := p
    simp only [List.map_cons, List.nodup_cons] at hnd
    intro q hq
    by_cases hm : m = n
    · subst hm
      rw [upsertAcc_cons_eq rest a rfl] at hq
      rcases List.mem_cons.mp hq with rfl | hq
      · exact Or.inl rfl
      · refine Or.inr ⟨?_, List.mem_cons_of_mem _ hq⟩
        intro hc
        exact hnd.1 (hc ▸ List.mem_map_of_mem _ hq)
    · rw [upsertAcc_cons_ne rest a hm] at hq
      rcases List.mem_cons.mp hq with rfl | hq
      · exact Or.inr ⟨hm, List.mem_cons_self _ _⟩
      · rcases ih hnd.2 q hq with h | ⟨hne, hmem⟩
        · exact Or.inl h
        · exact Or.inr ⟨hne, List.mem_cons_of_mem _ hmem⟩

theorem aggFold_spec (rows : List PlanRow) :
    ((rows.foldl aggStep []).map fun p => p.1).Nodup ∧
    (∀ p ∈ rows.foldl aggStep [], p.1 ≠ idleSentinel ∧
      p.2.total_assigned = sumAssignedFor p.1 rows ∧
      p.2.time_per_item_samples = samplesFor p.1 rows ∧
      p.2.first_day ∈ daysFor p.1 rows ∧
      (∀ d ∈ daysFor p.1 rows, p.2.first_day ≤ d)) ∧
    (∀ r ∈ rows, r.name ≠ idleSentinel →
      r.name ∈ (rows.foldl aggStep []).map fun p => p.1) := by
  induction rows using List.reverseRecOn with
  | nil => simp
  | append_singleton rows r ih =>
    obtain ⟨ihnd, ihent, ihcomp⟩ := ih
    have hfold : (rows ++ [r]).foldl aggStep [] =
        aggStep (rows.foldl aggStep []) r := by
      rw [List.foldl_append, List.foldl_cons, List.foldl_nil]
    by_cases hs : r.name = idleSentinel
    · have hstep : aggStep (rows.foldl aggStep []) r = rows.foldl aggStep [] := by
        simp [aggStep, hs]
      rw [hfold, hstep]
      refine ⟨ihnd, ?_, ?_⟩
      · intro p hp
        obtain ⟨hps, hta, hsam, hfd, hbd⟩ := ihent p hp
        have hne : ¬ r.name = p.1 := fun hc => hps (hc ▸ hs ▸ rfl)
        rw [hs] at hne
        refine ⟨hps, ?_, ?_, ?_, ?_⟩
        · rw [hta]
          simp [sumAssignedFor, rowsFor_append_ne rows (hs ▸ hne)]
        · rw [hsam]
          exact (samplesFor_append_ne rows (hs ▸ hne)).symm
        · simpa [daysFor, rowsFor_append_ne rows (hs ▸ hne)] using hfd
        · intro d hd
          rw [daysFor, rowsFor_append_ne rows (hs ▸ hne)] at hd
          exact hbd d hd
      · intro r' hr' hs'
        rcases List.mem_append.mp hr' with hr' | hr'
        · exact ihcomp r' hr' hs'
        · rw [List.mem_singleton.mp hr'] at hs'
          exact absurd hs hs'
    · -- a real task row: the accumulator entry for r.name is created/updated
      cases hbase : lookupAcc (rows.foldl aggStep []) r.name with
      | some b =>
        have hstep : aggStep (rows.foldl aggStep []) r =
            upsertAcc (rows.foldl aggStep []) r.name
              ⟨b.total_assigned + r.assigned,
               b.time_per_item_samples ++
                 (if r.assigned > 0 then [r.time / (r.assigned : ℚ)] else []),
               min b.first_day r.day⟩ := by
          simp [aggStep, hs, hbase]
        obtain ⟨hbs, hbta, hbsam, hbfd, hbbd⟩ := ihent (r.name, b) (lookupAcc_mem hbase)
        have hsum : sumAssignedFor r.name (rows ++ [r]) =
            sumAssignedFor r.name rows + r.assigned := by
          simp [sumAssignedFor, rowsFor_append_eq rows rfl]
        have hdays : daysFor r.name (rows ++ [r]) =
            daysFor r.name rows ++ [r.day] := by
          simp [daysFor, rowsFor_append_eq rows rfl]
        rw [hfold, hstep]
        refine ⟨nodup_keys_upsertAcc _ _ ihnd, ?_, ?_⟩
        · intro p hp
          rcases mem_upsertAcc ihnd p hp with rfl | ⟨hne, hmem⟩
          · refine ⟨hs, ?_, ?_, ?_, ?_⟩
            · simp only
              rw [hsum, hbta]
            · simp only
              rw [hbsam, samplesFor_append_eq rows rfl]
            · simp only
              rw [hdays]
              rcases min_choice b.first_day r.day with h | h
              · rw [h]
                exact List.mem_append_left _ hbfd
              · rw [h]
                simp
            · intro d hd
              simp only at hd ⊢
              rw [hdays] at hd
              rcases List.mem_append.mp hd with hd | hd
              · exact le_trans (min_le_left _ _) (hbbd d hd)
              · rw [List.mem_singleton.mp hd]
                exact min_le_right _ _
          · obtain ⟨hps, hta, hsam, hfd, hbd⟩ := ihent p hmem
            have hner : ¬ r.name = p.1 := fun hc => hne hc.symm
            refine ⟨hps, ?_, ?_, ?_, ?_⟩
            · rw [hta]
              simp [sumAssignedFor, rowsFor_append_ne rows hner]
            · rw [hsam]
              exact (samplesFor_append_ne rows hner).symm
            · simpa [daysFor, rowsFor_append_ne rows hner] using hfd
            · intro d hd
              rw [daysFor, rowsFor_append_ne rows hner] at hd
              exact hbd d hd
        · intro r' hr' hs'
          rw [mem_keys_upsertAcc]
          rcases List.mem_append.mp hr' with hr' | hr'
          · exact Or.inl (ihcomp r' hr' hs')
          · exact Or.inr (by rw [List.mem_singleton.mp hr'])
      | none =>
        have hstep : aggStep (rows.foldl aggStep []) r =
            upsertAcc (rows.foldl aggStep []) r.name
              ⟨0 + r.assigned,
               [] ++ (if r.assigned > 0 then [r.time / (r.assigned : ℚ)] else []),
               min r.day r.day⟩ := by
          simp [aggStep, hs, hbase]
        have hnone := lookupAcc_none hbase
        have hempty : ∀ r' ∈ rows, ¬ r'.name = r.name := by
          intro r' hr' hc
          exact hnone (hc ▸ ihcomp r' hr' (by rw [hc]; exact hs))
        have hrows0 : rowsFor r.name rows = [] := by
          simp only [rowsFor, List.filter_eq_nil_iff]
          intro r' hr'
          simpa using hempty r' hr'
        have hsam0 : samplesFor r.name rows = [] := by
          simp only [samplesFor]
          rw [List.filter_eq_nil_iff.mpr ?_]
          · simp
          · intro r' hr'
            simp only [decide_eq_true_eq, not_and]
            intro hc
            exact absurd hc (hempty r' hr')
        rw [hfold, hstep]
        refine ⟨nodup_keys_upsertAcc _ _ ihnd, ?_, ?_⟩
        · intro p hp
          rcases mem_upsertAcc ihnd p hp with rfl | ⟨hne, hmem⟩
          · refine ⟨hs, ?_, ?_, ?_, ?_⟩
            · simp only
              simp [sumAssignedFor, rowsFor_append_eq rows rfl, hrows0]
            · simp only
              rw [samplesFor_append_eq rows rfl, hsam0]
            · simp only
              simp [daysFor, rowsFor_append_eq rows rfl, hrows0]
            · intro d hd
              simp only at hd ⊢
              rw [daysFor, rowsFor_append_eq rows rfl, hrows0] at hd
              simp at hd
              rw [hd]
              exact min_le_right _ _
          · obtain ⟨hps, hta, hsam, hfd, hbd⟩ := ihent p hmem
            have hner : ¬ r.name = p.1 := fun hc => hne hc.symm
            refine ⟨hps, ?_, ?_, ?_, ?_⟩
            · rw [hta]
              simp [sumAssignedFor, rowsFor_append_ne rows hner]
            · rw [hsam]
              exact (samplesFor_append_ne rows hner).symm
            · simpa [daysFor, rowsFor_append_ne rows hner] using hfd
            · intro d hd
              rw [daysFor, rowsFor_append_ne rows hner] at hd
              exact hbd d hd
        · intro r' hr' hs'
          rw [mem_keys_upsertAcc]
          rcases List.mem_append.mp hr' with hr' | hr'
          · exact Or.inl (ihcomp r' hr' hs')
          · exact Or.inr (by rw [List.mem_singleton.mp hr'])

/-- C9: for every task name in the aggregation result (idle-sentinel rows
are excluded), `total_assigned` is the sum of assigned counts over all of
that task's rows, `first_day` is the minimum day among them, and
`time_per_item` is the mean of `time/assigned` over its rows with
`assigned > 0`, defaulting to 1.0 when there is no such row; and every
non-sentinel name appearing in the rows gets an aggregation entry. -/
theorem C9_aggregation (plan_rows : List PlanRow) :
    (∀ n info, (n, info) ∈ aggregate_tasks_from_plan plan_rows →
      n ≠ idleSentinel ∧
      info.total_assigned = sumAssignedFor n plan_rows ∧
      info.first_day ∈ daysFor n plan_rows ∧
      (∀ d ∈ daysFor n plan_rows, info.first_day ≤ d) ∧
      info.time_per_item = meanOrOne (samplesFor n plan_rows)) ∧
    (∀ r ∈ plan_rows, r.name ≠ idleSentinel →
      ∃ info, (r.name, info) ∈ aggregate_tasks_from_plan plan_rows) := by
  obtain ⟨hnd, hent, hcomp⟩ := aggFold_spec plan_rows
  constructor
  · intro n info hmem
    simp only [aggregate_tasks_from_plan, List.mem_map] at hmem
    obtain ⟨p, hp, heq⟩ := hmem
    obtain ⟨hps, hta, hsam, hfd, hbd⟩ := hent p hp
    have hn : p.1 = n := congrArg Prod.fst heq
    have hinfo : info = ⟨p.2.total_assigned, p.2.first_day,
        if p.2.time_per_item_samples = [] then 1
        else p.2.time_per_item_samples.sum / (p.2.time_per_item_samples.length : ℚ)⟩ :=
      (congrArg Prod.snd heq).symm
    subst hn
    refine ⟨hps, ?_, ?_, ?_, ?_⟩
    · rw [hinfo, hta]
    · rw [hinfo]
      exact hfd
    · intro d hd
      rw [hinfo]
      exact hbd d hd
    · rw [hinfo, meanOrOne, hsam]
  · intro r hr hs
    have := hcomp r hr hs
    obtain ⟨p, hp, hpn⟩ := List.mem_map.mp this
    refine ⟨⟨p.2.total_assigned, p.2.first_day,
      if p.2.time_per_item_samples = [] then 1
      else p.2.time_per_item_samples.sum / (p.2.time_per_item_samples.length : ℚ)⟩, ?_⟩
    simp only [aggregate_tasks_from_plan, List.mem_map]
    exact ⟨p, hp, by rw [← hpn]⟩

theorem C9_aggregation_witness :
    ("X" : String) ≠ idleSentinel ∧
    (⟨5, 1, 1/2⟩ : AggInfo).total_assigned =
      sumAssignedFor "X" [⟨1, "X", 2, 1⟩, ⟨2, "X", 3, 3/2⟩] ∧
    (⟨5, 1, 1/2⟩ : AggInfo).first_day ∈ daysFor "X" [⟨1, "X", 2, 1⟩, ⟨2, "X", 3, 3/2⟩] ∧
    (∀ d ∈ daysFor "X" [⟨1, "X", 2, 1⟩, ⟨2, "X", 3, 3/2⟩],
      (⟨5, 1, 1/2⟩ : AggInfo).first_day ≤ d) ∧
    (⟨5, 1, 1/2⟩ : AggInfo).time_per_item =
      meanOrOne (samplesFor "X" [⟨1, "X", 2, 1⟩, ⟨2, "X", 3, 3/2⟩]) :=
  (C9_aggregation [⟨1, "X", 2, 1⟩, ⟨2, "X", 3, 3/2⟩]).1 "X" ⟨5, 1, 1/2⟩
    (by
      have hx : ("X" = idleSentinel) = False := by simp [idleSentinel]
      norm_num [aggregate_tasks_from_plan, aggStep, lookupAcc, upsertAcc, hx]
      simp)

end StudyPlan
